import Mathlib

/-!
# Legislice: selection, comparison and merging of legislative text passages

A shallow embedding of the core data model of the `legislice` package:
normalized sets of half-open character intervals over a text
(`TextPositionSelector` / position sets), the recursive provision tree
(`Enactment`, whose children are loaded nodes or unexpanded URL links),
text selection and rendering with ellipses, cross-node offset translation,
comparison (`implies` / `means`), combination (`+`) and `EnactmentGroup`
consolidation.

The Python implementation files are not part of the provided sources, which
contain the package's documentation, notebooks, changelog and metadata.
Definitions are therefore modelled from the specification, calibrated
against the concrete worked examples in `docs/guides/enactments.rst`,
`docs/guides/downloading.rst` and `changelog.md` (e.g. the Thirteenth
Amendment's second child starting at offset 208 = 207 + 1, and the phrase
positions [786, 809) / [1254, 1277) in the Fourteenth Amendment).
-/

namespace Legislice

/-- Modelled from the spec: `TextPositionSelector`: a half-open character
interval `[start, stop)` over a text; the invariant `start < stop` is kept
by the normalization function rather than by the type. -/
structure TextPositionSelector where
  start : Nat
  stop : Nat
deriving DecidableEq, Repr

/-- Shift every selector in a list right by `k` characters. -/
def shiftSel (k : Nat) (l : List TextPositionSelector) : List TextPositionSelector :=
  l.map (fun s => ⟨s.start + k, s.stop + k⟩)

/-- Ordering of selectors by `start`, used to sort position sets. -/
def selLE (a b : TextPositionSelector) : Prop := a.start ≤ b.start

instance : DecidableRel selLE := fun a b => Nat.decLe a.start b.start

instance : IsTotal TextPositionSelector selLE := ⟨fun a b => Nat.le_total a.start b.start⟩

instance : IsTrans TextPositionSelector selLE := ⟨fun _ _ _ => Nat.le_trans⟩

/-- Sort a selector list by `start`. -/
def sortSel (l : List TextPositionSelector) : List TextPositionSelector :=
  List.insertionSort selLE l

/-- Modelled from the spec: the small-gap fusion sweep over a list already
sorted by `start`, carrying the interval being accumulated: the next member
is absorbed whenever its start is within 3 characters of the accumulated
end (changelog 0.2.0: "combine selected text passages within 3 characters
of each other"). -/
def fuseFrom (cur : TextPositionSelector) : List TextPositionSelector → List TextPositionSelector
  | [] => [cur]
  | t :: rest =>
    if t.start ≤ cur.stop + 3 then fuseFrom ⟨cur.start, max cur.stop t.stop⟩ rest
    else cur :: fuseFrom t rest

/-- Fusion sweep over a whole sorted list. -/
def fuseSel : List TextPositionSelector → List TextPositionSelector
  | [] => []
  | s :: rest => fuseFrom s rest

/-- Modelled from the spec: normalization of a `TextPositionSet`: drop
empty selectors (changelog 0.3.1), sort by `start`, fuse members whose gap
is at most 3 characters. -/
def normalize (l : List TextPositionSelector) : List TextPositionSelector :=
  fuseSel (sortSel (l.filter (fun s => s.start < s.stop)))

/-- Union of two position sets, merging per the small-gap fusion policy. -/
def posUnion (a b : List TextPositionSelector) : List TextPositionSelector :=
  normalize (a ++ b)

/-- The slice of `text` covered by one selector. -/
def sliceText (text : List Char) (s : TextPositionSelector) : List Char :=
  (text.drop s.start).take (s.stop - s.start)

/-- The ellipsis marker inserted between non-adjacent selected spans. -/
def ellipsis : List Char := ['…']

/-- Modelled from the spec: the rendering loop: walk the selectors (sorted
by position) keeping the end position of the previous span; an ellipsis is
emitted whenever uncovered text precedes the next span, and a trailing
ellipsis is emitted when uncovered text remains at the end. -/
def renderFrom (text : List Char) : Nat → List TextPositionSelector → List Char
  | pos, [] => if pos < text.length then ellipsis else []
  | pos, s :: rest =>
    (if pos < s.start then ellipsis else []) ++ sliceText text s ++ renderFrom text s.stop rest

/-- Modelled from the spec: `render(text, selection)`: concatenates the
substrings covered by the selection in order, joining non-adjacent spans
with `…`; an empty selection renders as the full text with no ellipses
(full text is the default, implicit selection). -/
def render (text : List Char) (sel : List TextPositionSelector) : List Char :=
  match sel with
  | [] => text
  | _ => renderFrom text 0 sel

mutual
/-- Modelled from the spec: a provision tree node (`Enactment`), with its
citation path (slash-segmented, here a list of segments), heading, ISO
start/end dates (kept as character strings, which compare chronologically
by lexicographic order), its own text (`content`), the selection scoped to
that text, and the ordered children. -/
inductive Enactment where
  | mk (node : List (List Char)) (heading : List Char) (start_date : List Char)
      (end_date : Option (List Char)) (content : List Char)
      (selection : List TextPositionSelector) (children : List EChild) : Enactment
/-- Modelled from the spec: a child of a provision node: either a fully
loaded node or an unexpanded URL link (the API truncates recursion on
shallow fetches, and the link is a distinct variant, not a node). -/
inductive EChild where
  | link (url : List Char) : EChild
  | node (e : Enactment) : EChild
end

/-- The citation path of a node. -/
def Enactment.node : Enactment → List (List Char)
  | .mk n _ _ _ _ _ _ => n

/-- The heading of a node. -/
def Enactment.heading : Enactment → List Char
  | .mk _ h _ _ _ _ _ => h

/-- The start date of a node (ISO text). -/
def Enactment.start_date : Enactment → List Char
  | .mk _ _ sd _ _ _ _ => sd

/-- The end date of a node, `none` while the version is in force. -/
def Enactment.end_date : Enactment → Option (List Char)
  | .mk _ _ _ ed _ _ _ => ed

/-- The node's own text, not including descendants. -/
def Enactment.content : Enactment → List Char
  | .mk _ _ _ _ c _ _ => c

/-- The selection scoped to the node's own text. -/
def Enactment.selection : Enactment → List TextPositionSelector
  | .mk _ _ _ _ _ sel _ => sel

/-- The ordered children (loaded nodes or unexpanded links). -/
def Enactment.children : Enactment → List EChild
  | .mk _ _ _ _ _ _ ch => ch

/-- Join two text chunks with a single space, skipping empty chunks (the
source joins a node's content with its children's text using `" ".join`
and strips; the Thirteenth Amendment's second child therefore starts at
offset 208 = 207 + 1 in the amendment's text). -/
def sepJoin2 (a b : List Char) : List Char :=
  if a.isEmpty then b else if b.isEmpty then a else a ++ ' ' :: b

/-- Join a list of text chunks with single spaces, skipping empty chunks. -/
def joinChunks (chunks : List (List Char)) : List Char :=
  chunks.foldr sepJoin2 []

/-- The position where the chunk placed after `chunk` begins, when `chunk`
begins at `pos`: an empty chunk occupies nothing, a non-empty chunk is
followed by one joining space. -/
def advance (pos : Nat) (chunk : List Char) : Nat :=
  if chunk.isEmpty then pos else pos + chunk.length + 1

mutual
/-- The full text of a provision: its own content joined with each loaded
child's full text in document order, single-space separated; link children
carry no text. -/
def Enactment.text : Enactment → List Char
  | .mk _ _ _ _ c _ ch => sepJoin2 c (joinChunks (childTexts ch))
/-- The full texts of the loaded children, in order. -/
def childTexts : List EChild → List (List Char)
  | [] => []
  | .link _ :: rest => childTexts rest
  | .node n :: rest => n.text :: childTexts rest
end

mutual
/-- The selectors of the whole subtree, translated into offsets relative
to this node's full text: the node's own selection first (its content
starts at offset 0), then each loaded child's subtree selectors shifted by
the position where that child's text begins. -/
def rawTreeSel : Enactment → List TextPositionSelector
  | .mk _ _ _ _ c sel ch => sel ++ rawTreeSelCh (advance 0 c) ch
/-- Subtree selectors of a list of children whose first chunk begins at
`pos`. -/
def rawTreeSelCh : Nat → List EChild → List TextPositionSelector
  | _, [] => []
  | pos, .link _ :: rest => rawTreeSelCh pos rest
  | pos, .node n :: rest =>
    shiftSel pos (rawTreeSel n) ++ rawTreeSelCh (advance pos n.text) rest
end

/-- `tree_selection()`: the normalized position set of the whole subtree,
relative to this node's full text. -/
def tree_selection (e : Enactment) : List TextPositionSelector :=
  normalize (rawTreeSel e)

/-- `selected_text()`: the rendering of the tree selection over the full
text. -/
def selected_text (e : Enactment) : List Char :=
  render e.text (tree_selection e)

/-- Restrict a tree-level position set to the window `[base, base+len)`
and relocalize it to start at 0: the part of a selection that falls on one
node's own text. -/
def clipLocal (q : List TextPositionSelector) (base len : Nat) : List TextPositionSelector :=
  q.filterMap (fun s =>
    let lo := max s.start base
    let hi := min s.stop (base + len)
    if lo < hi then some ⟨lo - base, hi - base⟩ else none)

mutual
/-- Distribute a tree-level position set over the tree: each node stores
the part of the set that falls on its own text, relocalized to that text
(selections are scoped per node and never to descendant text). -/
def distAt (q : List TextPositionSelector) (base : Nat) : Enactment → Enactment
  | .mk nd h sd ed c _ ch =>
    .mk nd h sd ed c (clipLocal q base c.length) (distChAt q (advance base c) ch)
/-- Distribute over a list of children whose first chunk begins at `pos`. -/
def distChAt (q : List TextPositionSelector) : Nat → List EChild → List EChild
  | _, [] => []
  | pos, .link u :: rest => .link u :: distChAt q pos rest
  | pos, .node n :: rest => .node (distAt q pos n) :: distChAt q (advance pos n.text) rest
end

/-- `select`: replace the whole tree's selection with a freshly built
position set (positions relative to this node's full text); any existing
selection is cleared. -/
def select (e : Enactment) (q : List TextPositionSelector) : Enactment :=
  distAt (normalize q) 0 e

/-- `select_more`: union the new selection into the existing one. -/
def select_more (e : Enactment) (q : List TextPositionSelector) : Enactment :=
  distAt (normalize (rawTreeSel e ++ q)) 0 e

mutual
/-- The fully selected version of a tree: every node selects the whole of
its own text (a freshly loaded Enactment selects all of its text). -/
def fullSelect : Enactment → Enactment
  | .mk nd h sd ed c _ ch =>
    .mk nd h sd ed c (if c.isEmpty then [] else [⟨0, c.length⟩]) (fullSelectCh ch)
/-- Fully select each loaded child. -/
def fullSelectCh : List EChild → List EChild
  | [] => []
  | .link u :: rest => .link u :: fullSelectCh rest
  | .node n :: rest => .node (fullSelect n) :: fullSelectCh rest
end

/-- Segment-wise ancestor test on citation paths: the ancestor-of relation
is the path-prefix relation on slash-separated segments. -/
def isSubPath : List (List Char) → List (List Char) → Bool
  | [], _ => true
  | _ :: _, [] => false
  | a :: as, b :: bs => if a = b then isSubPath as bs else false

/-- Whether the two nodes are comparable: equal paths or one an ancestor
of the other. -/
def relatedNodes (a b : Enactment) : Bool :=
  isSubPath a.node b.node || isSubPath b.node a.node

mutual
/-- The character offset, within this node's full text, where the subtree
whose citation path is `p` begins; `none` when no such subtree is loaded. -/
def locate : Enactment → List (List Char) → Option Nat
  | .mk nd _ _ _ c _ ch, p =>
    if nd = p then some 0 else locateCh (advance 0 c) ch p
/-- Locate a path among the children, whose first chunk begins at `pos`. -/
def locateCh : Nat → List EChild → List (List Char) → Option Nat
  | _, [], _ => none
  | pos, .link _ :: rest, p => locateCh pos rest p
  | pos, .node n :: rest, p =>
    if isSubPath n.node p then (locate n p).map (pos + ·)
    else locateCh (advance pos n.text) rest p
end

mutual
/-- Walk to a descendant along a list of child indices, returning it
together with the character offset where its full text begins inside this
node's full text (the separator-aware offset that the tree actually uses). -/
def descendAt : Enactment → List Nat → Option (Enactment × Nat)
  | e, [] => some (e, 0)
  | .mk _ _ _ _ c _ ch, i :: rest => descendCh (advance 0 c) ch i rest
/-- Walk into the `i`-th child of a children list whose first chunk begins
at `pos`; links cannot be entered. -/
def descendCh : Nat → List EChild → Nat → List Nat → Option (Enactment × Nat)
  | _, [], _, _ => none
  | _, .link _ :: _, 0, _ => none
  | pos, .link _ :: restCh, i + 1, rest => descendCh pos restCh i rest
  | pos, .node n :: _, 0, rest =>
    (descendAt n rest).map (fun de => (de.fst, pos + de.snd))
  | pos, .node n :: restCh, i + 1, rest => descendCh (advance pos n.text) restCh i rest
end

mutual
/-- Modelled from the spec: the offset formula as the specification words
it, with no separators: "summing the lengths of all preceding content (own
text + earlier siblings' full text) at each level". Used to compare the
claimed formula with the offset the tree actually uses. -/
def specOffsetAt : Enactment → List Nat → Option Nat
  | _, [] => some 0
  | .mk _ _ _ _ c _ ch, i :: rest => specOffsetCh c.length ch i rest
/-- Accumulating version of `specOffsetAt` over a children list, where
`acc` is the sum of the lengths of the content preceding the current
child. -/
def specOffsetCh : Nat → List EChild → Nat → List Nat → Option Nat
  | _, [], _, _ => none
  | _, .link _ :: _, 0, _ => none
  | acc, .link _ :: restCh, i + 1, rest => specOffsetCh acc restCh i rest
  | acc, .node n :: _, 0, rest => (specOffsetAt n rest).map (acc + ·)
  | acc, .node n :: restCh, i + 1, rest => specOffsetCh (acc + n.text.length) restCh i rest
end

/-- Whether `p` occurs at the very start of `t`. -/
def startsWith : List Char → List Char → Bool
  | [], _ => true
  | _ :: _, [] => false
  | a :: as, b :: bs => if a = b then startsWith as bs else false

/-- Search for the first occurrence of `p` in `t`; on success return the
remainder of `t` after that occurrence. -/
def firstMatchEnd : List Char → List Char → Option (List Char)
  | [], p => if p.isEmpty then some [] else none
  | c :: r, p => if startsWith p (c :: r) then some ((c :: r).drop p.length) else firstMatchEnd r p

/-- Fuelled matching loop: each step either consumes the next passage of
the second list (when it is found in the remaining text of the current
first-list passage) or moves past the current first-list passage; each
step shrinks one of the lists, so combined length bounds the recursion. -/
def matchSeqFuel : Nat → List (List Char) → List (List Char) → Bool
  | _, _, [] => true
  | 0, _, _ :: _ => false
  | _ + 1, [], _ :: _ => false
  | fuel + 1, a :: as, b :: bs =>
    match firstMatchEnd a b with
    | some rest => matchSeqFuel fuel (rest :: as) bs
    | none => matchSeqFuel fuel as (b :: bs)

/-- Whether the sequence of selected passages `bs` can be matched, in
order, inside the sequence of selected passages `as` (each passage of `bs`
found as a contiguous run inside the remaining text of some passage of
`as`, later passages matched at or after earlier ones). -/
def matchSeq (as bs : List (List Char)) : Bool :=
  matchSeqFuel (as.length + bs.length + 1) as bs

/-- The selected passages of an Enactment: the substrings of the full text
covered by the tree selection, in order; an empty selection means the
whole text is selected. -/
def text_passages (e : Enactment) : List (List Char) :=
  match tree_selection e with
  | [] => [e.text]
  | sel => sel.map (sliceText e.text)

/-- `implies` (alias `>=`): whether the Enactment on the left has all the
selected text of the Enactment on the right; computed from the selected
text sequences, whatever the two citation paths are. -/
def implies (a b : Enactment) : Bool :=
  matchSeq (text_passages a) (text_passages b)

/-- `means`: whether both Enactments have the same selected text, i.e.
each has all the selected text of the other. -/
def means (a b : Enactment) : Bool :=
  implies a b && implies b a

/-- Lexicographic comparison of ISO date texts (chronological order). -/
def lexLt : List Char → List Char → Bool
  | [], [] => false
  | [], _ :: _ => true
  | _ :: _, [] => false
  | a :: as, b :: bs =>
    if a.toNat < b.toNat then true
    else if b.toNat < a.toNat then false
    else lexLt as bs

/-- Modelled from the spec: whether the two nodes' validity date ranges
overlap; a missing end date means the version is still in force. -/
def date_ranges_overlap (a b : Enactment) : Bool :=
  (match b.end_date with | none => true | some eb => lexLt a.start_date eb) &&
  (match a.end_date with | none => true | some ea => lexLt b.start_date ea)

/-- Modelled from the spec: the error kinds of `combine`. -/
inductive CombineError where
  | incompatibleNodes
  | incompatibleDates
deriving DecidableEq, Repr

/-- The combination of an ancestor node with a descendant subtree found at
offset `off`: the ancestor's tree, reselected with the union of its own
tree selection and the descendant's tree selection translated up by
`off`. -/
def combineCore (anc desc : Enactment) (off : Nat) : Enactment :=
  distAt (normalize (rawTreeSel anc ++ shiftSel off (rawTreeSel desc))) 0 anc

/-- Modelled from the spec: `combine` (the `+` operator): defined only
when the two nodes are equal or one's path is an ancestor of the other's
and their validity date ranges overlap; the result is scoped to the
ancestor, with the descendant's selection translated up and unioned in.
Fails with `IncompatibleNodes` when the nodes are unrelated and with
`IncompatibleDates` when the date ranges do not overlap. -/
def combine (a b : Enactment) : Except CombineError Enactment :=
  if isSubPath a.node b.node then
    if date_ranges_overlap a b then
      .ok (combineCore a b ((locate a b.node).getD 0))
    else .error .incompatibleDates
  else if isSubPath b.node a.node then
    if date_ranges_overlap a b then
      .ok (combineCore b a ((locate b a.node).getD 0))
    else .error .incompatibleDates
  else .error .incompatibleNodes

/-- Near-overlap of two selectors: overlapping or within the 3-character
gap-fusion threshold of each other. -/
def nearOverlap (s t : TextPositionSelector) : Bool :=
  s.start ≤ t.stop + 3 && t.start ≤ s.stop + 3

/-- Whether some selector of `p` nearly overlaps some selector of `q`. -/
def selsNearOverlap (p q : List TextPositionSelector) : Bool :=
  p.any (fun s => q.any (fun t => nearOverlap s t))

/-- Modelled from the spec: whether two group members can be combined:
their nodes are equal or ancestor/descendant and, after translating the
descendant's tree selection into the ancestor's offset space, the two
tree selections overlap (including touching within the gap-fusion
threshold). -/
def combinable (a b : Enactment) : Bool :=
  if isSubPath a.node b.node then
    match locate a b.node with
    | some off => selsNearOverlap (tree_selection a) (shiftSel off (tree_selection b))
    | none => false
  else if isSubPath b.node a.node then
    match locate b a.node with
    | some off => selsNearOverlap (shiftSel off (tree_selection a)) (tree_selection b)
    | none => false
  else false

/-- Combination of two combinable group members, scoped to whichever node
is the ancestor. -/
def combineG (a b : Enactment) : Enactment :=
  if isSubPath a.node b.node then combineCore a b ((locate a b.node).getD 0)
  else combineCore b a ((locate b a.node).getD 0)

/-- Find the first member combinable with `e`, returning it together with
the remaining members. -/
def findCombinable : List Enactment → Enactment → Option (Enactment × List Enactment)
  | [], _ => none
  | m :: rest, e =>
    if combinable m e then some (m, rest)
    else match findCombinable rest e with
      | none => none
      | some (m2, rest2) => some (m2, m :: rest2)

/-- Fuelled insertion loop: each successful combination removes one
member, so the group's length bounds the recursion. -/
def insertFuel : Nat → List Enactment → Enactment → List Enactment
  | 0, g, e => g ++ [e]
  | fuel + 1, g, e =>
    match findCombinable g e with
    | none => g ++ [e]
    | some (m, rest) => insertFuel fuel rest (combineG m e)

/-- Modelled from the spec: insertion of a Passage into a Group: scan for
a member whose node is comparable and whose translated tree selection
overlaps; if one is found, the two are replaced by their combination,
which is re-inserted (so a combination that newly overlaps a further
member is merged again); otherwise the Passage is appended. -/
def insertG (g : List Enactment) (e : Enactment) : List Enactment :=
  insertFuel g.length g e

/-- Modelled from the spec: an `EnactmentGroup` built from a list of
Passages: each is inserted in turn, merging overlap-combinable members. -/
def EnactmentGroup (l : List Enactment) : List Enactment :=
  l.foldl insertG []

/-- Modelled from the spec: group union (`+`): fold the insertion rule
over the right operand's members. -/
def addGroups (g h : List Enactment) : List Enactment :=
  h.foldl insertG g

/-- Bool form of the group invariant: no member is combinable with any
later member. -/
def groupOkB : List Enactment → Bool
  | [] => true
  | m :: rest => rest.all (fun x => !combinable m x) && groupOkB rest

/-- The citation path rendered with slash separators, as in the source's
path-style citations. -/
def pathChars (p : List (List Char)) : List Char :=
  p.foldl (fun acc seg => acc ++ '/' :: seg) []

/-- The parenthesized citation of a provision: node path, a space, and the
ISO start date. -/
def cite (e : Enactment) : List Char :=
  '(' :: pathChars e.node ++ ' ' :: e.start_date ++ [')']

/-- A text wrapped in double quotation marks. -/
def quoteWrap (t : List Char) : List Char :=
  '"' :: t ++ ['"']

/-- The string representation of an Enactment: the currently selected text
in double quotation marks, a space, and the parenthesized citation. -/
def Enactment.str (e : Enactment) : List Char :=
  quoteWrap (selected_text e) ++ ' ' :: cite e

/-- Modelled from the spec: the error raised when text or children are
requested on a link-only child: the caller must re-fetch. -/
inductive PassageError where
  | unexpandedNode
deriving DecidableEq, Repr

/-- The text carried by a child: a loaded node yields its full text, an
unexpanded link has none and fails with `UnexpandedNode`. -/
def EChild.textOf : EChild → Except PassageError (List Char)
  | .link _ => .error .unexpandedNode
  | .node n => .ok n.text

/-- The children of a child: a loaded node yields its children list, an
unexpanded link fails with `UnexpandedNode`. -/
def EChild.childrenOf : EChild → Except PassageError (List EChild)
  | .link _ => .error .unexpandedNode
  | .node n => .ok n.children

mutual
/-- Bool form of the per-node selection invariant: every stored selector
is non-empty and lies within the node's own text. -/
def selOkB : Enactment → Bool
  | .mk _ _ _ _ c sel ch =>
    sel.all (fun s => decide (s.start < s.stop) && decide (s.stop ≤ c.length)) && selOkCh ch
/-- The selection invariant over a children list. -/
def selOkCh : List EChild → Bool
  | [] => true
  | .link _ :: r => selOkCh r
  | .node n :: r => selOkB n && selOkCh r
end

/-- A strictly separated chain of selectors: each span ends strictly
before the next begins (the shape of a normalized position set). -/
def chainSepB : List TextPositionSelector → Bool
  | [] => true
  | [_] => true
  | s :: t :: rest => decide (s.stop < t.start) && chainSepB (t :: rest)

/-- The end of the last selector of a list (0 for the empty list). -/
def lastStop : List TextPositionSelector → Nat
  | [] => 0
  | [s] => s.stop
  | _ :: t :: rest => lastStop (t :: rest)

/-- Chunks joined by a separator (no separator before the first or after
the last chunk). -/
def sepBy (sep : List Char) : List (List Char) → List Char
  | [] => []
  | [p] => p
  | p :: q :: rest => p ++ sep ++ sepBy sep (q :: rest)

/-- Recognizer for the exact raw selector lists produced by a fully
selected tree: starting at `pos`, each selector begins exactly at the
current position and is non-empty, and the next selector begins one
separator character after it ends; returns the position one past the end.
-/
def chainFrom : Nat → List TextPositionSelector → Option Nat
  | pos, [] => some pos
  | pos, s :: rest =>
    if s.start = pos then if pos < s.stop then chainFrom (s.stop + 1) rest else none
    else none

/-- Discriminator for the unexpanded-link variant of a child. -/
def EChild.isLink : EChild → Bool
  | .link _ => true
  | .node _ => false

/-! ### Concrete instances used by the claim checks -/

/-- A single-provision Enactment with text `abcd`, fully selected. -/
def pFull : Enactment :=
  .mk [['p']] [] "2020-01-01".toList none "abcd".toList [⟨0, 4⟩] []

/-- The same provision with only `ab` selected. -/
def pPart : Enactment :=
  .mk [['p']] [] "2020-01-01".toList none "abcd".toList [⟨0, 2⟩] []

/-- A provision at path `/a` whose selection covers the phrase `pq`. -/
def vA : Enactment :=
  .mk [['a']] [] "1791-12-15".toList none "xxpqzz".toList [⟨2, 4⟩] []

/-- An unrelated provision at path `/b` whose selection covers the same
phrase `pq`. -/
def vB : Enactment :=
  .mk [['b']] [] "1868-07-28".toList none "pqyy".toList [⟨0, 2⟩] []

/-- A parent with own text `ab` and one child with text `cd`, the child
selecting all of its own text: the child's text begins at offset 3 of the
parent's full text `ab cd` (2 preceding characters plus the joining
space). -/
def c3parent : Enactment :=
  .mk [['n']] [] "2020-01-01".toList none "ab".toList []
    [.node (.mk [['n'], ['1']] [] "2020-01-01".toList none "cd".toList [⟨0, 2⟩] [])]

/-- A section-1 stand-in with 467 characters of text (the length of
section 1 of the Fourteenth Amendment) and nothing selected. -/
def sec1XIV : Enactment :=
  .mk [['X'], ['1']] [] "1868-07-28".toList none (List.replicate 467 'a') [] []

/-- A section-2 stand-in with the phrase positions `[786, 809)` selected
in its own text. -/
def sec2XIV : Enactment :=
  .mk [['X'], ['2']] [] "1868-07-28".toList none (List.replicate 900 'b') [⟨786, 809⟩] []

/-- An amendment-shaped tree: empty own text, two sections; section 2
begins at offset 468 = 467 + 1 of the full text. -/
def exXIV : Enactment :=
  .mk [['X']] [] "1868-07-28".toList none [] [] [.node sec1XIV, .node sec2XIV]

/-- A section with two subsections, text selected inside subsection `b`. -/
def s103 : Enactment :=
  .mk [['s']] [] "2013-07-18".toList none [] []
    [ .node (.mk [['s'], ['a']] [] "2013-07-18".toList none "AAAA".toList [] []),
      .node (.mk [['s'], ['b']] [] "2013-07-18".toList none "BBBBBB".toList [⟨2, 4⟩] []) ]

/-- Subsection `a` of the same section as a standalone, fully selected
Enactment (dates overlapping with the parent's). -/
def s103a : Enactment :=
  .mk [['s'], ['a']] [] "2013-07-18".toList none "AAAA".toList [⟨0, 4⟩] []

/-- A parent with empty own text and one text-bearing child. -/
def deepP : Enactment :=
  .mk [['n']] [] "2020-01-01".toList none [] []
    [.node (.mk [['n'], ['1']] [] "2020-01-01".toList none "cd".toList [] [])]

/-- Group member at `/c/I` selecting `[0, 4)` (establishment clause
stand-in). -/
def gA : Enactment :=
  .mk [['c'], ['I']] [] "1791-12-15".toList none "abcdefgh".toList [⟨0, 4⟩] []

/-- Group member at the sibling `/c/II` (arms clause stand-in). -/
def gB : Enactment :=
  .mk [['c'], ['I', 'I']] [] "1791-12-15".toList none "stuv".toList [⟨0, 4⟩] []

/-- Group member at the sibling `/c/III` (third amendment stand-in). -/
def gC : Enactment :=
  .mk [['c'], ['I', 'I', 'I']] [] "1791-12-15".toList none "wxyz".toList [⟨0, 4⟩] []

/-- Group member at `/c/I` again, selecting `[6, 8)`, which is within the
gap-fusion threshold of `gA`'s selection (speech clause stand-in). -/
def gD : Enactment :=
  .mk [['c'], ['I']] [] "1791-12-15".toList none "abcdefgh".toList [⟨6, 8⟩] []

/-- Number of members removed by `findCombinable`. -/
theorem findCombinable_length {g : List Enactment} {e m : Enactment} {rest : List Enactment}
    (h : findCombinable g e = some (m, rest)) : rest.length + 1 = g.length := by
  induction g generalizing m rest with
  | nil => simp [findCombinable] at h
  | cons m0 r ih =>
    by_cases hc : combinable m0 e
    · simp [findCombinable, hc] at h
      simp [← h.2]
    · simp only [findCombinable, hc, if_false] at h
      cases hfc : findCombinable r e with
      | none => rw [hfc] at h; simp at h
      | some p =>
        obtain ⟨m2, rest2⟩ := p
        rw [hfc] at h
        simp at h
        have := ih hfc
        simp [← h.2, List.length_cons]
        omega

/-! ### Lemmas about the position algebra -/

theorem shiftSel_zero : ∀ l : List TextPositionSelector, shiftSel 0 l = l
  | [] => rfl
  | s :: rest => by
    obtain ⟨a, b⟩ := s
    show (⟨a + 0, b + 0⟩ : TextPositionSelector) :: shiftSel 0 rest = ⟨a, b⟩ :: rest
    rw [shiftSel_zero rest]
    simp

theorem mem_shiftSel {s : TextPositionSelector} {l : List TextPositionSelector} (k : Nat)
    (h : s ∈ l) : (⟨s.start + k, s.stop + k⟩ : TextPositionSelector) ∈ shiftSel k l := by
  simpa [shiftSel] using ⟨s, h, rfl, rfl⟩

theorem chainFrom_append {A : List TextPositionSelector} {p q : Nat}
    (h : chainFrom p A = some q) (B : List TextPositionSelector) :
    chainFrom p (A ++ B) = chainFrom q B := by
  induction A generalizing p with
  | nil => simp [chainFrom] at h; simp [h]
  | cons s rest ih =>
    simp only [chainFrom] at h
    by_cases h1 : s.start = p
    · rw [if_pos h1] at h
      by_cases h2 : p < s.stop
      · rw [if_pos h2] at h
        simpa [chainFrom, h1, h2] using ih h
      · rw [if_neg h2] at h; exact absurd h (by simp)
    · rw [if_neg h1] at h; exact absurd h (by simp)

theorem chainFrom_shift {B : List TextPositionSelector} {p q : Nat}
    (h : chainFrom p B = some q) (k : Nat) :
    chainFrom (p + k) (shiftSel k B) = some (q + k) := by
  induction B generalizing p with
  | nil => simp [chainFrom] at h ⊢; simp [h]
  | cons s rest ih =>
    simp only [chainFrom] at h
    by_cases h1 : s.start = p
    · rw [if_pos h1] at h
      by_cases h2 : p < s.stop
      · rw [if_pos h2] at h
        have := ih h
        simp only [shiftSel, List.map_cons, chainFrom]
        rw [if_pos (by omega), if_pos (by omega)]
        have harr : s.stop + k + 1 = s.stop + 1 + k := by omega
        rw [harr]
        exact this
      · rw [if_neg h2] at h; exact absurd h (by simp)
    · rw [if_neg h1] at h; exact absurd h (by simp)

theorem chainFrom_valid {l : List TextPositionSelector} {p q : Nat}
    (h : chainFrom p l = some q) : ∀ s ∈ l, s.start < s.stop := by
  induction l generalizing p with
  | nil => simp
  | cons s rest ih =>
    simp only [chainFrom] at h
    by_cases h1 : s.start = p
    · rw [if_pos h1] at h
      by_cases h2 : p < s.stop
      · rw [if_pos h2] at h
        intro t ht
        rcases List.mem_cons.mp ht with rfl | ht2
        · omega
        · exact ih h t ht2
      · rw [if_neg h2] at h; exact absurd h (by simp)
    · rw [if_neg h1] at h; exact absurd h (by simp)

theorem chainFrom_start_ge {l : List TextPositionSelector} {p q : Nat}
    (h : chainFrom p l = some q) : ∀ s ∈ l, p ≤ s.start := by
  induction l generalizing p with
  | nil => simp
  | cons s rest ih =>
    simp only [chainFrom] at h
    by_cases h1 : s.start = p
    · rw [if_pos h1] at h
      by_cases h2 : p < s.stop
      · rw [if_pos h2] at h
        intro t ht
        rcases List.mem_cons.mp ht with rfl | ht2
        · omega
        · have := ih h t ht2; omega
      · rw [if_neg h2] at h; exact absurd h (by simp)
    · rw [if_neg h1] at h; exact absurd h (by simp)

theorem chainFrom_sorted {l : List TextPositionSelector} {p q : Nat}
    (h : chainFrom p l = some q) : List.Sorted selLE l := by
  induction l generalizing p with
  | nil => exact List.sorted_nil
  | cons s rest ih =>
    simp only [chainFrom] at h
    by_cases h1 : s.start = p
    · rw [if_pos h1] at h
      by_cases h2 : p < s.stop
      · rw [if_pos h2] at h
        refine List.sorted_cons.mpr ⟨?_, ih h⟩
        intro t ht
        have := chainFrom_start_ge h t ht
        simp only [selLE]
        omega
      · rw [if_neg h2] at h; exact absurd h (by simp)
    · rw [if_neg h1] at h; exact absurd h (by simp)

theorem fuseFrom_chain {rest : List TextPositionSelector} {q : Nat} :
    ∀ {cur : TextPositionSelector}, chainFrom (cur.stop + 1) rest = some q →
    fuseFrom cur rest = [⟨cur.start, q - 1⟩] := by
  induction rest with
  | nil =>
    intro cur h
    simp [chainFrom] at h
    simp [fuseFrom, ← h]
  | cons t r ih =>
    intro cur h
    simp only [chainFrom] at h
    by_cases h1 : t.start = cur.stop + 1
    · rw [if_pos h1] at h
      by_cases h2 : cur.stop + 1 < t.stop
      · rw [if_pos h2] at h
        have hmax : max cur.stop t.stop = t.stop := by omega
        simp only [fuseFrom, if_pos (by omega : t.start ≤ cur.stop + 3)]
        rw [hmax]
        exact ih h
      · rw [if_neg h2] at h; exact absurd h (by simp)
    · rw [if_neg h1] at h; exact absurd h (by simp)

theorem normalize_chain {l : List TextPositionSelector} {q : Nat}
    (h : chainFrom 0 l = some q) (hne : l ≠ []) :
    normalize l = [⟨0, q - 1⟩] := by
  have hfilter : l.filter (fun s => decide (s.start < s.stop)) = l := by
    rw [List.filter_eq_self]
    intro s hs
    simpa using chainFrom_valid h s hs
  have hsort : sortSel l = l := (chainFrom_sorted h).insertionSort_eq
  unfold normalize sortSel at *
  rw [hfilter, hsort]
  cases l with
  | nil => exact absurd rfl hne
  | cons s rest =>
    simp only [chainFrom] at h
    by_cases h1 : s.start = 0
    · rw [if_pos h1] at h
      by_cases h2 : 0 < s.stop
      · rw [if_pos h2] at h
        show fuseFrom s rest = _
        rw [fuseFrom_chain h, h1]
      · rw [if_neg h2] at h; exact absurd h (by simp)
    · rw [if_neg h1] at h; exact absurd h (by simp)

theorem fuseFrom_covers : ∀ (rest : List TextPositionSelector) (cur : TextPositionSelector),
    List.Pairwise selLE (cur :: rest) →
    ∀ s ∈ cur :: rest, ∃ t ∈ fuseFrom cur rest, t.start ≤ s.start ∧ s.stop ≤ t.stop := by
  intro rest
  induction rest with
  | nil =>
    intro cur _ s hs
    simp only [List.mem_singleton] at hs
    subst hs
    exact ⟨s, by simp [fuseFrom], Nat.le_refl _, Nat.le_refl _⟩
  | cons t r ih =>
    intro cur hpw s hs
    have hct : selLE cur t := (List.pairwise_cons.mp hpw).1 t (List.mem_cons_self t r)
    by_cases hm : t.start ≤ cur.stop + 3
    · -- the head is absorbed into the accumulated interval
      have hpw2 : List.Pairwise selLE ((⟨cur.start, max cur.stop t.stop⟩ : TextPositionSelector) :: r) := by
        refine List.pairwise_cons.mpr ⟨?_, (List.pairwise_cons.mp (List.pairwise_cons.mp hpw).2).2⟩
        intro u hu
        have h1 := (List.pairwise_cons.mp hpw).1 u (List.mem_cons_of_mem t hu)
        exact h1
      simp only [fuseFrom, if_pos hm]
      rcases List.mem_cons.mp hs with rfl | hs2
      · -- s = cur is inside the accumulated interval
        obtain ⟨u, hu, hu1, hu2⟩ := ih _ hpw2 _ (List.mem_cons_self _ _)
        exact ⟨u, hu, by simpa using hu1, by simp at hu2; omega⟩
      rcases List.mem_cons.mp hs2 with rfl | hs3
      · -- s = t is inside the accumulated interval too
        obtain ⟨u, hu, hu1, hu2⟩ := ih _ hpw2 _ (List.mem_cons_self _ _)
        simp only at hu1 hu2
        refine ⟨u, hu, ?_, ?_⟩
        · simp only [selLE] at hct; omega
        · have : s.stop ≤ max cur.stop s.stop := Nat.le_max_right _ _
          omega
      · obtain ⟨u, hu, hu1, hu2⟩ := ih _ hpw2 _ (List.mem_cons_of_mem _ hs3)
        exact ⟨u, hu, hu1, hu2⟩
    · -- the accumulated interval is emitted
      simp only [fuseFrom, if_neg hm]
      rcases List.mem_cons.mp hs with rfl | hs2
      · exact ⟨s, List.mem_cons_self _ _, Nat.le_refl _, Nat.le_refl _⟩
      · obtain ⟨u, hu, hu1, hu2⟩ := ih _ (List.pairwise_cons.mp hpw).2 _ hs2
        exact ⟨u, List.mem_cons_of_mem _ hu, hu1, hu2⟩

theorem normalize_covers {s : TextPositionSelector} {l : List TextPositionSelector}
    (hmem : s ∈ l) (hval : s.start < s.stop) :
    ∃ t ∈ normalize l, t.start ≤ s.start ∧ s.stop ≤ t.stop := by
  have h1 : s ∈ l.filter (fun s => decide (s.start < s.stop)) :=
    List.mem_filter.mpr ⟨hmem, by simpa using hval⟩
  have h2 : s ∈ List.insertionSort selLE (l.filter (fun s => decide (s.start < s.stop))) := by
    rw [List.mem_insertionSort]
    exact h1
  have hsorted : List.Sorted selLE (List.insertionSort selLE (l.filter (fun s => decide (s.start < s.stop)))) :=
    List.sorted_insertionSort selLE _
  unfold normalize sortSel
  cases hls : List.insertionSort selLE (l.filter (fun s => decide (s.start < s.stop))) with
  | nil => rw [hls] at h2; simp at h2
  | cons c rest =>
    rw [hls] at h2 hsorted
    exact fuseFrom_covers rest c hsorted _ h2

theorem normalize_two_gap {a b c d : Nat} (hab : a < b) (hbc : b ≤ c) (hcd : c < d) :
    (c ≤ b + 3 →
      normalize [⟨a, b⟩, ⟨c, d⟩] = [⟨a, d⟩]) ∧
    (b + 3 < c →
      normalize [⟨a, b⟩, ⟨c, d⟩] = [⟨a, b⟩, ⟨c, d⟩]) := by
  have hfil : List.filter (fun s => decide (s.start < s.stop)) [⟨a, b⟩, ⟨c, d⟩] =
      [(⟨a, b⟩ : TextPositionSelector), ⟨c, d⟩] := by
    simp [List.filter, hab, hcd]
  have hsort : List.insertionSort selLE [(⟨a, b⟩ : TextPositionSelector), ⟨c, d⟩] =
      [(⟨a, b⟩ : TextPositionSelector), ⟨c, d⟩] := by
    refine List.Sorted.insertionSort_eq ?_
    refine List.sorted_cons.mpr ⟨?_, List.sorted_singleton _⟩
    intro t ht
    simp only [List.mem_singleton] at ht
    subst ht
    simp only [selLE]
    omega
  constructor
  · intro hgap
    unfold normalize sortSel
    rw [hfil, hsort]
    show fuseFrom ⟨a, b⟩ [⟨c, d⟩] = [⟨a, d⟩]
    simp only [fuseFrom, if_pos hgap]
    have : max b d = d := by omega
    rw [this]
  · intro hgap
    unfold normalize sortSel
    rw [hfil, hsort]
    show fuseFrom ⟨a, b⟩ [⟨c, d⟩] = [⟨a, b⟩, ⟨c, d⟩]
    simp only [fuseFrom]
    rw [if_neg (by omega)]

theorem renderFrom_closed (text : List Char) :
    ∀ (rest : List TextPositionSelector) (s : TextPositionSelector) (pos : Nat),
    pos ≤ s.start → chainSepB (s :: rest) = true → lastStop (s :: rest) ≤ text.length →
    renderFrom text pos (s :: rest) =
      (if pos < s.start then ellipsis else []) ++
      sepBy ellipsis ((s :: rest).map (sliceText text)) ++
      (if lastStop (s :: rest) = text.length then [] else ellipsis) := by
  intro rest
  induction rest with
  | nil =>
    intro s pos _ _ hls
    have hstop : lastStop [s] = s.stop := rfl
    rw [hstop] at hls
    show (if pos < s.start then ellipsis else []) ++ sliceText text s ++
        (if s.stop < text.length then ellipsis else []) = _
    have htail : (if s.stop < text.length then ellipsis else []) =
        (if lastStop [s] = text.length then [] else ellipsis) := by
      rw [hstop]
      by_cases he : s.stop = text.length
      · rw [if_pos he, if_neg (by omega)]
      · rw [if_neg he, if_pos (by omega)]
    rw [htail]
    show _ = _ ++ sepBy ellipsis [sliceText text s] ++ _
    simp [sepBy, List.append_assoc]
  | cons t r ih =>
    intro s pos _ hch hls
    have hch1 : s.stop < t.start := by
      have := (Bool.and_eq_true _ _).mp hch
      simpa using this.1
    have hch2 : chainSepB (t :: r) = true := ((Bool.and_eq_true _ _).mp hch).2
    have hls2 : lastStop (t :: r) ≤ text.length := by
      have : lastStop (s :: t :: r) = lastStop (t :: r) := rfl
      omega
    have hstep := ih t s.stop (by omega) hch2 hls2
    show (if pos < s.start then ellipsis else []) ++ sliceText text s ++
        renderFrom text s.stop (t :: r) = _
    rw [hstep, if_pos hch1]
    have hlast : lastStop (s :: t :: r) = lastStop (t :: r) := rfl
    rw [hlast]
    show _ = _ ++ sepBy ellipsis (sliceText text s :: sliceText text t :: List.map (sliceText text) r) ++ _
    simp only [sepBy, List.map_cons, List.append_assoc]

/-! ### Lemmas about the provision tree -/

theorem sepJoin2_nil_left (b : List Char) : sepJoin2 [] b = b := by
  simp [sepJoin2]

theorem sepJoin2_nil_right (a : List Char) : sepJoin2 a [] = a := by
  by_cases h : a = [] <;> simp [sepJoin2, h]

theorem sepJoin2_cons (a b : List Char) (ha : a ≠ []) (hb : b ≠ []) :
    sepJoin2 a b = a ++ ' ' :: b := by
  simp [sepJoin2, ha, hb]

theorem sepJoin2_eq_nil {a b : List Char} (h : sepJoin2 a b = []) : a = [] ∧ b = [] := by
  by_cases ha : a = []
  · rw [ha, sepJoin2_nil_left] at h; exact ⟨ha, h⟩
  · by_cases hb : b = []
    · exact ⟨absurd (by rwa [hb, sepJoin2_nil_right] at h) ha, hb⟩
    · rw [sepJoin2_cons a b ha hb] at h
      cases ha (by cases a with | nil => rfl | cons x xs => simp at h)

theorem advance_nil (pos : Nat) : advance pos [] = pos := rfl

theorem advance_cons {c : List Char} (pos : Nat) (h : c ≠ []) :
    advance pos c = pos + c.length + 1 := by
  simp [advance, h]

mutual
theorem text_distAt : ∀ (q : List TextPositionSelector) (base : Nat) (e : Enactment),
    (distAt q base e).text = e.text
  | q, base, .mk nd h sd ed c sel ch => by
    show sepJoin2 c (joinChunks (childTexts (distChAt q (advance base c) ch))) = _
    rw [childTexts_distChAt q (advance base c) ch]
    rfl
theorem childTexts_distChAt : ∀ (q : List TextPositionSelector) (pos : Nat) (ch : List EChild),
    childTexts (distChAt q pos ch) = childTexts ch
  | _, _, [] => rfl
  | q, pos, .link u :: rest => by
    show childTexts (distChAt q pos rest) = childTexts rest
    rw [childTexts_distChAt q pos rest]
  | q, pos, .node n :: rest => by
    show (distAt q pos n).text :: childTexts (distChAt q (advance pos n.text) rest) =
        n.text :: childTexts rest
    rw [text_distAt q pos n, childTexts_distChAt q (advance pos n.text) rest]
end

theorem node_distAt (q : List TextPositionSelector) (base : Nat) :
    ∀ e : Enactment, (distAt q base e).node = e.node
  | .mk _ _ _ _ _ _ _ => rfl

theorem start_date_distAt (q : List TextPositionSelector) (base : Nat) :
    ∀ e : Enactment, (distAt q base e).start_date = e.start_date
  | .mk _ _ _ _ _ _ _ => rfl

theorem content_distAt (q : List TextPositionSelector) (base : Nat) :
    ∀ e : Enactment, (distAt q base e).content = e.content
  | .mk _ _ _ _ _ _ _ => rfl

theorem selection_distAt (q : List TextPositionSelector) (base : Nat) :
    ∀ e : Enactment, (distAt q base e).selection = clipLocal q base e.content.length
  | .mk _ _ _ _ _ _ _ => rfl

mutual
theorem distAt_overwrite : ∀ (q : List TextPositionSelector) (base : Nat)
    (q2 : List TextPositionSelector) (base2 : Nat) (e : Enactment),
    distAt q base (distAt q2 base2 e) = distAt q base e
  | q, base, q2, base2, .mk nd h sd ed c sel ch => by
    show Enactment.mk nd h sd ed c (clipLocal q base c.length)
        (distChAt q (advance base c) (distChAt q2 (advance base2 c) ch)) = _
    rw [distChAt_overwrite q (advance base c) q2 (advance base2 c) ch]
    rfl
theorem distChAt_overwrite : ∀ (q : List TextPositionSelector) (pos : Nat)
    (q2 : List TextPositionSelector) (pos2 : Nat) (ch : List EChild),
    distChAt q pos (distChAt q2 pos2 ch) = distChAt q pos ch
  | _, _, _, _, [] => rfl
  | q, pos, q2, pos2, .link u :: rest => by
    show EChild.link u :: distChAt q pos (distChAt q2 pos2 rest) = _
    rw [distChAt_overwrite q pos q2 pos2 rest]
    rfl
  | q, pos, q2, pos2, .node n :: rest => by
    show EChild.node (distAt q pos (distAt q2 pos2 n)) ::
        distChAt q (advance pos (distAt q2 pos2 n).text) (distChAt q2 (advance pos2 n.text) rest) =
        EChild.node (distAt q pos n) :: distChAt q (advance pos n.text) rest
    rw [text_distAt q2 pos2 n, distAt_overwrite q pos q2 pos2 n,
      distChAt_overwrite q (advance pos n.text) q2 (advance pos2 n.text) rest]
end

mutual
theorem text_fullSelect : ∀ e : Enactment, (fullSelect e).text = e.text
  | .mk nd h sd ed c sel ch => by
    show sepJoin2 c (joinChunks (childTexts (fullSelectCh ch))) = _
    rw [childTexts_fullSelectCh ch]
    rfl
theorem childTexts_fullSelectCh : ∀ ch : List EChild, childTexts (fullSelectCh ch) = childTexts ch
  | [] => rfl
  | .link u :: rest => by
    show childTexts (fullSelectCh rest) = childTexts rest
    rw [childTexts_fullSelectCh rest]
  | .node n :: rest => by
    show (fullSelect n).text :: childTexts (fullSelectCh rest) = n.text :: childTexts rest
    rw [text_fullSelect n, childTexts_fullSelectCh rest]
end

theorem node_fullSelect : ∀ e : Enactment, (fullSelect e).node = e.node
  | .mk _ _ _ _ _ _ _ => rfl

theorem start_date_fullSelect : ∀ e : Enactment, (fullSelect e).start_date = e.start_date
  | .mk _ _ _ _ _ _ _ => rfl

mutual
theorem chain_fullSelect : ∀ e : Enactment,
    (e.text = [] → rawTreeSel (fullSelect e) = []) ∧
    (e.text ≠ [] → chainFrom 0 (rawTreeSel (fullSelect e)) = some (e.text.length + 1))
  | .mk nd hh sd ed c sel ch => by
    have hch := chain_fullSelectCh ch
    have htext : (Enactment.mk nd hh sd ed c sel ch).text =
        sepJoin2 c (joinChunks (childTexts ch)) := rfl
    have hraw : rawTreeSel (fullSelect (.mk nd hh sd ed c sel ch)) =
        (if c.isEmpty then [] else [⟨0, c.length⟩]) ++
          rawTreeSelCh (advance 0 c) (fullSelectCh ch) := rfl
    by_cases hc : c = []
    · subst hc
      rw [htext, sepJoin2_nil_left]
      rw [hraw]
      simp only [List.isEmpty_nil, if_true, List.nil_append, advance_nil]
      have h0 := hch 0
      rwa [Nat.zero_add] at h0
    · have hcl : 0 < c.length := List.length_pos.mpr hc
      have hisE : c.isEmpty = false := by
        cases c with | nil => exact absurd rfl hc | cons x xs => rfl
      rw [htext, hraw, hisE]
      simp only [Bool.false_eq_true, if_false]
      rw [advance_cons 0 hc, Nat.zero_add]
      by_cases hJ : joinChunks (childTexts ch) = []
      · rw [hJ, sepJoin2_nil_right]
        rw [(hch (c.length + 1)).1 hJ, List.append_nil]
        constructor
        · intro habs; exact absurd habs hc
        · intro _
          show chainFrom 0 [⟨0, c.length⟩] = some (c.length + 1)
          simp [chainFrom, hcl]
      · rw [sepJoin2_cons c _ hc hJ]
        constructor
        · intro habs; simp at habs
        · intro _
          have h1 : chainFrom 0 [(⟨0, c.length⟩ : TextPositionSelector)] = some (c.length + 1) := by
            simp [chainFrom, hcl]
          rw [chainFrom_append h1]
          rw [(hch (c.length + 1)).2 hJ]
          congr 1
          simp
          omega
theorem chain_fullSelectCh : ∀ (ch : List EChild) (pos : Nat),
    (joinChunks (childTexts ch) = [] → rawTreeSelCh pos (fullSelectCh ch) = []) ∧
    (joinChunks (childTexts ch) ≠ [] →
      chainFrom pos (rawTreeSelCh pos (fullSelectCh ch)) =
        some (pos + (joinChunks (childTexts ch)).length + 1))
  | [], pos => by
    constructor
    · intro _; rfl
    · intro habs; exact absurd rfl habs
  | .link u :: rest, pos => by
    have := chain_fullSelectCh rest pos
    exact this
  | .node n :: rest, pos => by
    have hn := chain_fullSelect n
    have hrest := chain_fullSelectCh rest
    have hJ : joinChunks (childTexts (.node n :: rest)) =
        sepJoin2 n.text (joinChunks (childTexts rest)) := rfl
    have hstep : rawTreeSelCh pos (fullSelectCh (.node n :: rest)) =
        shiftSel pos (rawTreeSel (fullSelect n)) ++
          rawTreeSelCh (advance pos (fullSelect n).text) (fullSelectCh rest) := rfl
    rw [hstep, text_fullSelect n, hJ]
    by_cases hT : n.text = []
    · rw [hT, sepJoin2_nil_left]
      rw [hn.1 hT]
      show (_ → shiftSel pos [] ++ _ = []) ∧ _
      simp only [shiftSel, List.map_nil, List.nil_append]
      rw [hT] at *
      rw [advance_nil]
      exact hrest pos
    · have hTl : 0 < n.text.length := List.length_pos.mpr hT
      have hshift : chainFrom pos (shiftSel pos (rawTreeSel (fullSelect n))) =
          some (n.text.length + 1 + pos) := by
        have := chainFrom_shift (hn.2 hT) pos
        rwa [Nat.zero_add] at this
      rw [advance_cons pos hT]
      by_cases hJ2 : joinChunks (childTexts rest) = []
      · rw [hJ2, sepJoin2_nil_right]
        rw [(hrest (pos + n.text.length + 1)).1 hJ2, List.append_nil]
        constructor
        · intro habs; exact absurd habs hT
        · intro _
          rw [hshift]
          congr 1
          omega
      · rw [sepJoin2_cons _ _ hT hJ2]
        constructor
        · intro habs; simp at habs
        · intro _
          have hsh2 : chainFrom pos (shiftSel pos (rawTreeSel (fullSelect n))) =
              some (pos + n.text.length + 1) := by rw [hshift]; congr 1; omega
          rw [chainFrom_append hsh2]
          rw [(hrest (pos + n.text.length + 1)).2 hJ2]
          congr 1
          simp
          omega
end

theorem tree_selection_fullSelect (e : Enactment) :
    tree_selection (fullSelect e) =
      if e.text = [] then [] else [⟨0, e.text.length⟩] := by
  by_cases h : e.text = []
  · rw [if_pos h]
    unfold tree_selection
    rw [(chain_fullSelect e).1 h]
    rfl
  · rw [if_neg h]
    unfold tree_selection
    have hchain := (chain_fullSelect e).2 h
    have hne : rawTreeSel (fullSelect e) ≠ [] := by
      intro habs
      rw [habs] at hchain
      simp [chainFrom] at hchain
    rw [normalize_chain hchain hne]
    simp

theorem render_full (t : List Char) (h : t ≠ []) :
    render t [⟨0, t.length⟩] = t := by
  have hl : 0 < t.length := List.length_pos.mpr h
  show renderFrom t 0 [⟨0, t.length⟩] = t
  show (if (0 : Nat) < 0 then ellipsis else []) ++ sliceText t ⟨0, t.length⟩ ++
      renderFrom t t.length [] = t
  rw [if_neg (by omega)]
  show [] ++ (t.drop 0).take (t.length - 0) ++ (if t.length < t.length then ellipsis else []) = t
  rw [if_neg (by omega)]
  simp

theorem selected_text_fullSelect (e : Enactment) :
    selected_text (fullSelect e) = e.text := by
  unfold selected_text
  rw [text_fullSelect e, tree_selection_fullSelect e]
  by_cases h : e.text = []
  · rw [if_pos h, h]
    rfl
  · rw [if_neg h]
    exact render_full e.text h

/-! ### Offsets of descendants inside an ancestor's full text -/

mutual
theorem descend_mem : ∀ (idxs : List Nat) (e d : Enactment) (off : Nat),
    descendAt e idxs = some (d, off) →
    ∀ s ∈ rawTreeSel d, (⟨s.start + off, s.stop + off⟩ : TextPositionSelector) ∈ rawTreeSel e
  | [], e, d, off, h => by
    simp only [descendAt, Option.some_inj, Prod.mk.injEq] at h
    obtain ⟨rfl, rfl⟩ := h
    intro s hs
    simpa using hs
  | i :: rest, .mk nd hh sd ed c sel ch, d, off, h => by
    intro s hs
    have hmem := descend_mem_ch ch (advance 0 c) i rest d off h s hs
    show _ ∈ sel ++ rawTreeSelCh (advance 0 c) ch
    exact List.mem_append_right _ hmem
theorem descend_mem_ch : ∀ (ch : List EChild) (pos : Nat) (i : Nat) (rest : List Nat)
    (d : Enactment) (off : Nat),
    descendCh pos ch i rest = some (d, off) →
    ∀ s ∈ rawTreeSel d, (⟨s.start + off, s.stop + off⟩ : TextPositionSelector) ∈ rawTreeSelCh pos ch
  | [], _, i, rest, d, off, h => by
    simp [descendCh] at h
  | .link u :: restCh, pos, i, rest, d, off, h => by
    cases i with
    | zero => simp [descendCh] at h
    | succ j =>
      intro s hs
      exact descend_mem_ch restCh pos j rest d off h s hs
  | .node n :: restCh, pos, i, rest, d, off, h => by
    cases i with
    | zero =>
      simp only [descendCh, Option.map_eq_some'] at h
      obtain ⟨⟨d2, off2⟩, hd2, heq⟩ := h
      simp only [Prod.mk.injEq] at heq
      obtain ⟨rfl, rfl⟩ := heq
      intro s hs
      have h1 := descend_mem rest n d2 off2 hd2 s hs
      have h2 := mem_shiftSel pos h1
      show _ ∈ shiftSel pos (rawTreeSel n) ++ rawTreeSelCh (advance pos n.text) restCh
      refine List.mem_append_left _ ?_
      have harith : s.start + (pos + off2) = s.start + off2 + pos ∧
          s.stop + (pos + off2) = s.stop + off2 + pos := by omega
      rw [harith.1, harith.2]
      exact h2
    | succ j =>
      intro s hs
      have := descend_mem_ch restCh (advance pos n.text) j rest d off h s hs
      show _ ∈ shiftSel pos (rawTreeSel n) ++ rawTreeSelCh (advance pos n.text) restCh
      exact List.mem_append_right _ this
end

/-! ### The per-node selection invariant -/

theorem clipLocal_ok {q : List TextPositionSelector} {base len : Nat} :
    ∀ s ∈ clipLocal q base len, s.start < s.stop ∧ s.stop ≤ len := by
  intro s hs
  simp only [clipLocal, List.mem_filterMap] at hs
  obtain ⟨t, _, ht⟩ := hs
  by_cases h : max t.start base < min t.stop (base + len)
  · rw [if_pos h] at ht
    simp only [Option.some_inj] at ht
    subst ht
    simp only
    omega
  · rw [if_neg h] at ht
    exact absurd ht (by simp)

theorem clipLocal_outside {q : List TextPositionSelector} {base len : Nat}
    (h : ∀ s ∈ q, s.stop ≤ base ∨ base + len ≤ s.start) :
    clipLocal q base len = [] := by
  unfold clipLocal
  rw [List.filterMap_eq_nil_iff]
  intro t ht
  rcases h t ht with h1 | h1
  · rw [if_neg (by omega)]
  · rw [if_neg (by omega)]

mutual
theorem selOkB_distAt : ∀ (q : List TextPositionSelector) (base : Nat) (e : Enactment),
    selOkB (distAt q base e) = true
  | q, base, .mk nd hh sd ed c sel ch => by
    show ((clipLocal q base c.length).all
        (fun s => decide (s.start < s.stop) && decide (s.stop ≤ c.length)) &&
      selOkCh (distChAt q (advance base c) ch)) = true
    rw [Bool.and_eq_true]
    constructor
    · rw [List.all_eq_true]
      intro s hs
      have := clipLocal_ok s hs
      simp only [Bool.and_eq_true, decide_eq_true_eq]
      exact ⟨this.1, this.2⟩
    · exact selOkCh_distChAt q (advance base c) ch
theorem selOkCh_distChAt : ∀ (q : List TextPositionSelector) (pos : Nat) (ch : List EChild),
    selOkCh (distChAt q pos ch) = true
  | _, _, [] => rfl
  | q, pos, .link u :: rest => by
    show selOkCh (distChAt q pos rest) = true
    exact selOkCh_distChAt q pos rest
  | q, pos, .node n :: rest => by
    show (selOkB (distAt q pos n) && selOkCh (distChAt q (advance pos n.text) rest)) = true
    rw [Bool.and_eq_true]
    exact ⟨selOkB_distAt q pos n, selOkCh_distChAt q (advance pos n.text) rest⟩
end

/-! ### Text-sequence comparison -/

theorem startsWith_refl : ∀ t : List Char, startsWith t t = true
  | [] => rfl
  | c :: r => by
    show (if c = c then startsWith r r else false) = true
    rw [if_pos rfl]
    exact startsWith_refl r

theorem firstMatchEnd_self (a : List Char) (h : a ≠ []) : firstMatchEnd a a = some [] := by
  cases a with
  | nil => exact absurd rfl h
  | cons c r =>
    show (if startsWith (c :: r) (c :: r) then some ((c :: r).drop (c :: r).length)
      else firstMatchEnd r (c :: r)) = some []
    rw [if_pos (startsWith_refl (c :: r))]
    rw [List.drop_length]

theorem matchSeqFuel_refl : ∀ (l : List (List Char)) (fuel : Nat),
    l.length + l.length < fuel → (∀ p ∈ l, p ≠ []) → matchSeqFuel fuel l l = true
  | [], fuel, _, _ => by cases fuel <;> rfl
  | a :: as, fuel, hf, hne => by
    have ha : a ≠ [] := hne a (List.mem_cons_self _ _)
    cases fuel with
    | zero => omega
    | succ f =>
      show (match firstMatchEnd a a with
        | some rest => matchSeqFuel f (rest :: as) as
        | none => matchSeqFuel f as (a :: as)) = true
      rw [firstMatchEnd_self a ha]
      show matchSeqFuel f ([] :: as) as = true
      cases as with
      | nil => cases f <;> rfl
      | cons b bs =>
        cases f with
        | zero => simp [List.length_cons] at hf
        | succ f2 =>
          have hb : b ≠ [] := hne b (List.mem_cons_of_mem _ (List.mem_cons_self _ _))
          have hfm : firstMatchEnd [] b = none := by
            show (if b.isEmpty then some [] else none) = none
            rw [if_neg (by simpa using hb)]
          show (match firstMatchEnd [] b with
            | some rest => matchSeqFuel f2 (rest :: b :: bs) bs
            | none => matchSeqFuel f2 (b :: bs) (b :: bs)) = true
          rw [hfm]
          refine matchSeqFuel_refl (b :: bs) f2 ?_ ?_
          · simp [List.length_cons] at hf ⊢
            omega
          · intro p hp
            exact hne p (List.mem_cons_of_mem _ hp)

theorem matchSeq_refl (l : List (List Char)) (h : ∀ p ∈ l, p ≠ []) :
    matchSeq l l = true :=
  matchSeqFuel_refl l (l.length + l.length + 1) (by omega) h

/-! ### Group consolidation lemmas -/

theorem findCombinable_none_all {g : List Enactment} {e : Enactment}
    (h : findCombinable g e = none) : ∀ m ∈ g, combinable m e = false := by
  induction g with
  | nil => simp
  | cons m0 r ih =>
    by_cases hc : combinable m0 e
    · simp [findCombinable, hc] at h
    · simp only [findCombinable, hc, if_false] at h
      intro m hm
      rcases List.mem_cons.mp hm with rfl | hm2
      · simpa using hc
      · cases hfc : findCombinable r e with
        | none => exact ih hfc m hm2
        | some p => rw [hfc] at h; exact absurd h (by simp)

theorem findCombinable_subset {g : List Enactment} {e m : Enactment} {rest : List Enactment}
    (h : findCombinable g e = some (m, rest)) : ∀ x ∈ rest, x ∈ g := by
  induction g generalizing m rest with
  | nil => simp [findCombinable] at h
  | cons m0 r ih =>
    by_cases hc : combinable m0 e
    · simp only [findCombinable, if_pos hc] at h
      simp at h
      intro x hx
      exact List.mem_cons_of_mem _ (h.2 ▸ hx)
    · simp only [findCombinable, hc, if_false] at h
      cases hfc : findCombinable r e with
      | none => rw [hfc] at h; exact absurd h (by simp)
      | some p =>
        obtain ⟨m2, rest2⟩ := p
        rw [hfc] at h
        simp at h
        intro x hx
        rw [← h.2] at hx
        rcases List.mem_cons.mp hx with rfl | hx2
        · exact List.mem_cons_self _ _
        · exact List.mem_cons_of_mem _ (ih hfc x hx2)

theorem groupOkB_mem {g : List Enactment} {m : Enactment} :
    groupOkB (m :: g) = true ↔ ((∀ x ∈ g, combinable m x = false) ∧ groupOkB g = true) := by
  show (g.all (fun x => !combinable m x) && groupOkB g) = true ↔ _
  rw [Bool.and_eq_true, List.all_eq_true]
  constructor
  · intro ⟨h1, h2⟩
    exact ⟨fun x hx => by simpa using h1 x hx, h2⟩
  · intro ⟨h1, h2⟩
    exact ⟨fun x hx => by simpa using h1 x hx, h2⟩

theorem findCombinable_some_ok {g : List Enactment} {e m : Enactment} {rest : List Enactment}
    (h : findCombinable g e = some (m, rest)) (hok : groupOkB g = true) :
    groupOkB rest = true := by
  induction g generalizing m rest with
  | nil => simp [findCombinable] at h
  | cons m0 r ih =>
    rw [groupOkB_mem] at hok
    by_cases hc : combinable m0 e
    · simp only [findCombinable, if_pos hc] at h
      simp at h
      rw [← h.2]
      exact hok.2
    · simp only [findCombinable, hc, if_false] at h
      cases hfc : findCombinable r e with
      | none => rw [hfc] at h; exact absurd h (by simp)
      | some p =>
        obtain ⟨m2, rest2⟩ := p
        rw [hfc] at h
        simp at h
        rw [← h.2]
        rw [groupOkB_mem]
        constructor
        · intro x hx
          exact hok.1 x (findCombinable_subset hfc x hx)
        · exact ih hfc hok.2

theorem groupOkB_append_one {g : List Enactment} {e : Enactment}
    (hok : groupOkB g = true) (hnone : ∀ m ∈ g, combinable m e = false) :
    groupOkB (g ++ [e]) = true := by
  induction g with
  | nil => rfl
  | cons m0 r ih =>
    rw [groupOkB_mem] at hok
    show groupOkB (m0 :: (r ++ [e])) = true
    rw [groupOkB_mem]
    constructor
    · intro x hx
      rcases List.mem_append.mp hx with hx1 | hx2
      · exact hok.1 x hx1
      · rw [List.mem_singleton.mp hx2]
        exact hnone m0 (List.mem_cons_self _ _)
    · exact ih hok.2 (fun m hm => hnone m (List.mem_cons_of_mem _ hm))

theorem insertFuel_ok : ∀ (fuel : Nat) (g : List Enactment) (e : Enactment),
    g.length ≤ fuel → groupOkB g = true → groupOkB (insertFuel fuel g e) = true
  | 0, g, e, hf, _ => by
    have hg : g = [] := List.eq_nil_of_length_eq_zero (by omega)
    subst hg
    rfl
  | fuel + 1, g, e, hf, hok => by
    show groupOkB (match findCombinable g e with
      | none => g ++ [e]
      | some (m, rest) => insertFuel fuel rest (combineG m e)) = true
    cases hfc : findCombinable g e with
    | none => exact groupOkB_append_one hok (findCombinable_none_all hfc)
    | some p =>
      obtain ⟨m, rest⟩ := p
      have hlen := findCombinable_length hfc
      exact insertFuel_ok fuel rest (combineG m e) (by omega) (findCombinable_some_ok hfc hok)

theorem insertG_ok (g : List Enactment) (e : Enactment) (hok : groupOkB g = true) :
    groupOkB (insertG g e) = true :=
  insertFuel_ok g.length g e (Nat.le_refl _) hok

theorem foldl_insertG_ok {l : List Enactment} :
    ∀ {g : List Enactment}, groupOkB g = true → groupOkB (l.foldl insertG g) = true := by
  induction l with
  | nil => intro g h; exact h
  | cons e r ih =>
    intro g h
    show groupOkB (r.foldl insertG (insertG g e)) = true
    exact ih (insertG_ok g e h)

theorem childTexts_links : ∀ urls : List (List Char),
    childTexts (urls.map EChild.link) = []
  | [] => rfl
  | _ :: rest => childTexts_links rest

/-! ### The claims -/

/-- C1, counterexample: `select` and `select_more` do not leave the
Enactment's observable selection unchanged: modelling the in-place update
as state passing, the post-call state's `selection` and `selected_text()`
differ from the pre-call state's (the docs show `select_more` changing the
object in place and require `deepcopy` before independent modification). -/
theorem counterC1 :
    selected_text (select pFull [⟨0, 2⟩]) ≠ selected_text pFull ∧
    (select_more pPart [⟨3, 4⟩]).selection ≠ pPart.selection ∧
    selected_text (select_more pPart [⟨3, 4⟩]) ≠ selected_text pPart := by
  refine ⟨by decide, by decide, by decide⟩

/-- C1 as amended: `select` and `select_more` update the Enactment in
place (modelled as state passing: the call's result is the updated
Passage, and the pre-call value is not preserved for aliases, so a
deepcopy is needed before independent modification); the update keeps the
node and full text and replaces the selection, the post-state of `select`
being determined by the node tree and the new selectors alone, independent
of any selection made before. -/
theorem claimC1 : ∀ (e : Enactment) (q q1 q2 : List TextPositionSelector),
    (select e q).node = e.node ∧ (select e q).text = e.text ∧
    select (select e q1) q2 = select e q2 ∧
    select (select_more e q1) q2 = select e q2 := by
  intro e q q1 q2
  exact ⟨node_distAt _ 0 e, text_distAt _ 0 e,
    distAt_overwrite _ 0 _ 0 e, distAt_overwrite _ 0 _ 0 e⟩

/-- C2, counterexample: two Passages at unrelated node paths (neither a
path-prefix of the other) that select the same phrase compare as `true`
under both `implies` and `means`, so unrelated nodes do not force a
`false` answer (the docs show `means` returning True for the Fifth
Amendment and Fourteenth Amendment section 1 both selecting "life,
liberty, or property, without due process of law"). -/
theorem counterC2 :
    relatedNodes vA vB = false ∧ implies vA vB = true ∧ means vA vB = true := by
  refine ⟨by decide, by decide, by decide⟩

/-- C2 as amended: for Passages at unrelated node paths, `implies` and
`means` never raise (they are total Bool-valued functions computed from
the selected text sequences alone); identical selected text yields `true`
even across unrelated nodes, and unrelated-node comparisons are `false`
exactly when the text coverage fails. -/
theorem claimC2 : ∀ a b : Enactment,
    relatedNodes a b = false →
    text_passages a = text_passages b →
    (∀ p ∈ text_passages a, p ≠ []) →
    implies a b = true ∧ means a b = true := by
  intro a b _ heq hne
  have h1 : implies a b = true := by
    unfold implies
    rw [heq]
    exact matchSeq_refl _ (heq ▸ hne)
  have h2 : implies b a = true := by
    unfold implies
    rw [heq]
    exact matchSeq_refl _ (heq ▸ hne)
  exact ⟨h1, by unfold means; rw [h1, h2]; rfl⟩

/-- C2 witness: the amended claim applied to the two concrete unrelated
Passages selecting the same phrase. -/
theorem witnessC2 : implies vA vB = true ∧ means vA vB = true :=
  claimC2 vA vB (by decide) (by decide) (by decide)

/-- C3, counterexample: with a parent whose own text is `ab` and a child
with text `cd`, the claimed offset formula (sum of the lengths of the
preceding content, with no separators) gives 2, but the child's selector
`[0, 2)` appears in the parent's `tree_selection()` at `[3, 5)`, not at
`[2, 4)`: the joining space between chunks is not counted by the claimed
formula. -/
theorem counterC3 :
    specOffsetAt c3parent [0] = some 2 ∧
    tree_selection c3parent = [⟨3, 5⟩] ∧
    ¬ ((⟨2, 4⟩ : TextPositionSelector) ∈ tree_selection c3parent) := by
  refine ⟨by decide, by decide, by decide⟩

/-- C3 as amended: the character offset of a descendant's text within an
ancestor's full text is the sum of the lengths of all preceding content
plus one joining space after each non-empty preceding chunk (the offset
computed by `descendAt`); a selector `[s, e)` of the descendant's own text
appears in the ancestor's collected tree selectors shifted by exactly that
offset, and the normalized `tree_selection()` covers the shifted interval. -/
theorem claimC3 : ∀ (e d : Enactment) (idxs : List Nat) (off : Nat) (s : TextPositionSelector),
    descendAt e idxs = some (d, off) → s ∈ rawTreeSel d → s.start < s.stop →
    ((⟨s.start + off, s.stop + off⟩ : TextPositionSelector) ∈ rawTreeSel e ∧
     ∃ t ∈ tree_selection e, t.start ≤ s.start + off ∧ s.stop + off ≤ t.stop) := by
  intro e d idxs off s h hs hval
  have h1 := descend_mem idxs e d off h s hs
  refine ⟨h1, ?_⟩
  exact normalize_covers h1 (by simpa using Nat.add_lt_add_right hval off)

set_option maxRecDepth 100000 in
/-- C3 witness: in the amendment-shaped tree (section 1 of length 467),
the selector `[786, 809)` of section 2 appears at `[1254, 1277)` =
`[786 + 468, 809 + 468)` in the amendment's tree selection, exactly the
doc's Fourteenth Amendment example. -/
theorem witnessC3 :
    (⟨1254, 1277⟩ : TextPositionSelector) ∈ rawTreeSel exXIV ∧
    tree_selection exXIV = [⟨1254, 1277⟩] := by
  have h := (claimC3 exXIV sec2XIV [1] 468 ⟨786, 809⟩ rfl (by decide) (by decide)).1
  exact ⟨h, by decide⟩

/-- C4 (confirmed): two selectors in `start` order separated by a gap of
at most 3 characters are merged by normalization into one selector
covering their union including the gap, while a gap of more than 3
characters leaves them separate; in particular the boundary gap of 3
merges and the boundary gap of 4 does not. -/
theorem claimC4 : ∀ a b c d : Nat, a < b → b ≤ c → c < d →
    ((c ≤ b + 3 → normalize [⟨a, b⟩, ⟨c, d⟩] = [⟨a, d⟩]) ∧
     (b + 3 < c → normalize [⟨a, b⟩, ⟨c, d⟩] = [⟨a, b⟩, ⟨c, d⟩])) := by
  intro a b c d hab hbc hcd
  exact normalize_two_gap hab hbc hcd

/-- C4 witness: `[0,10)` and `[12,20)` (gap 2) merge into `[0,20)`; the
gap-3 boundary `[0,10)`, `[13,20)` merges; the gap-4 boundary `[0,10)`,
`[14,20)` stays separate. -/
theorem witnessC4 :
    normalize [⟨0, 10⟩, ⟨12, 20⟩] = [⟨0, 20⟩] ∧
    normalize [⟨0, 10⟩, ⟨13, 20⟩] = [⟨0, 20⟩] ∧
    normalize [⟨0, 10⟩, ⟨14, 20⟩] = [⟨0, 10⟩, ⟨14, 20⟩] :=
  ⟨(claimC4 0 10 12 20 (by decide) (by decide) (by decide)).1 (by decide),
   (claimC4 0 10 13 20 (by decide) (by decide) (by decide)).1 (by decide),
   (claimC4 0 10 14 20 (by decide) (by decide) (by decide)).2 (by decide)⟩

/-- C5 (confirmed): after group construction, insertion of a Passage, or
union of two groups, no member is overlap-combinable with any other
member (an incoming Passage at an equal/ancestor/descendant node whose
translated tree selection overlaps a member is replaced by their
combination, which is re-inserted); and a group built from two 2-member
groups, exactly one of whose pairs overlaps, has exactly 3 members. -/
theorem claimC5 :
    (∀ l : List Enactment, groupOkB (EnactmentGroup l) = true) ∧
    (∀ (g : List Enactment) (e : Enactment), groupOkB g = true → groupOkB (insertG g e) = true) ∧
    (∀ g h : List Enactment, groupOkB g = true → groupOkB (addGroups g h) = true) ∧
    (addGroups (EnactmentGroup [gA, gB]) (EnactmentGroup [gC, gD])).length = 3 := by
  refine ⟨?_, insertG_ok, ?_, by decide⟩
  · intro l
    exact foldl_insertG_ok rfl
  · intro g h hok
    exact foldl_insertG_ok hok

/-- C5 witness: the invariant parts applied to the concrete groups of the
doc's example shape. -/
theorem witnessC5 :
    groupOkB (EnactmentGroup [gA, gB]) = true ∧
    groupOkB (insertG (EnactmentGroup [gA, gB]) gD) = true ∧
    groupOkB (addGroups (EnactmentGroup [gA, gB]) (EnactmentGroup [gC, gD])) = true :=
  ⟨claimC5.1 [gA, gB],
   claimC5.2.1 (EnactmentGroup [gA, gB]) gD (by decide),
   claimC5.2.2.1 (EnactmentGroup [gA, gB]) (EnactmentGroup [gC, gD]) (by decide)⟩

/-- C6 (confirmed): `combine` succeeds exactly when the two nodes are
equal or one path is an ancestor (path-prefix) of the other and their
validity date ranges overlap; it fails with `IncompatibleNodes` when the
nodes are unrelated and with `IncompatibleDates` when the ranges do not
overlap; on success the result is scoped to the ancestor node (keeping the
ancestor's citation path and full text) with the descendant's selection
translated up and unioned in. -/
theorem claimC6 : ∀ a b : Enactment,
    (relatedNodes a b = false → combine a b = .error .incompatibleNodes) ∧
    (relatedNodes a b = true → date_ranges_overlap a b = false →
      combine a b = .error .incompatibleDates) ∧
    (relatedNodes a b = true → date_ranges_overlap a b = true →
      ∃ c, combine a b = .ok c ∧
        c.node = (if isSubPath a.node b.node then a.node else b.node) ∧
        c.text = (if isSubPath a.node b.node then a.text else b.text)) := by
  intro a b
  by_cases h1 : isSubPath a.node b.node = true
  · refine ⟨?_, ?_, ?_⟩
    · intro hrel
      rw [relatedNodes, h1] at hrel
      simp at hrel
    · intro _ hdate
      unfold combine
      rw [if_pos h1, if_neg (by simp [hdate])]
    · intro _ hov
      unfold combine
      rw [if_pos h1, if_pos hov]
      refine ⟨_, rfl, ?_, ?_⟩
      · rw [if_pos h1]
        exact node_distAt _ 0 a
      · rw [if_pos h1]
        exact text_distAt _ 0 a
  · by_cases h2 : isSubPath b.node a.node = true
    · refine ⟨?_, ?_, ?_⟩
      · intro hrel
        rw [relatedNodes, h2] at hrel
        simp at hrel
      · intro _ hdate
        unfold combine
        rw [if_neg h1, if_pos h2, if_neg (by simp [hdate])]
      · intro _ hov
        unfold combine
        rw [if_neg h1, if_pos h2, if_pos hov]
        refine ⟨_, rfl, ?_, ?_⟩
        · rw [if_neg h1]
          exact node_distAt _ 0 b
        · rw [if_neg h1]
          exact text_distAt _ 0 b
    · refine ⟨?_, ?_, ?_⟩
      · intro _
        unfold combine
        rw [if_neg h1, if_neg h2]
      · intro hrel _
        rw [relatedNodes] at hrel
        simp [h1, h2] at hrel
      · intro hrel _
        rw [relatedNodes] at hrel
        simp [h1, h2] at hrel

/-- C6 witness: combining the concrete section with its standalone
subsection (related nodes, overlapping dates) succeeds with the result
scoped to the section. -/
theorem witnessC6 :
    ∃ c, combine s103 s103a = .ok c ∧ c.node = s103.node ∧ c.text = s103.text := by
  obtain ⟨c, hc, hn, ht⟩ := (claimC6 s103 s103a).2.2 (by decide) (by decide)
  refine ⟨c, hc, ?_, ?_⟩
  · rw [hn, if_pos (by decide : isSubPath s103.node s103a.node = true)]
  · rw [ht, if_pos (by decide : isSubPath s103.node s103a.node = true)]

/-- C7 (confirmed): for every text and non-empty normalized selection
(strictly separated spans ending within the text), the rendered selected
text concatenates the selected substrings in order joined by `…`, omits
the leading ellipsis exactly when the selection starts at position 0,
omits the trailing ellipsis exactly when the selection reaches the end of
the text, and an empty selection renders as the full text with no
ellipses. -/
theorem claimC7 : ∀ (text : List Char) (s0 : TextPositionSelector)
    (rest : List TextPositionSelector),
    chainSepB (s0 :: rest) = true → lastStop (s0 :: rest) ≤ text.length →
    (render text (s0 :: rest) =
      (if s0.start = 0 then [] else ellipsis) ++
      sepBy ellipsis ((s0 :: rest).map (sliceText text)) ++
      (if lastStop (s0 :: rest) = text.length then [] else ellipsis)) ∧
    render text [] = text := by
  intro text s0 rest hch hls
  constructor
  · have hmain := renderFrom_closed text rest s0 0 (Nat.zero_le _) hch hls
    have hif : (if 0 < s0.start then ellipsis else []) =
        (if s0.start = 0 then [] else ellipsis) := by
      by_cases h0 : s0.start = 0
      · rw [if_pos h0, if_neg (by omega)]
      · rw [if_neg h0, if_pos (by omega)]
    show renderFrom text 0 (s0 :: rest) = _
    rw [hmain, hif]
  · rfl

/-- C7 witness: rendering `[2,4)` and `[6,8)` over `abcdefgh` yields
`…cd…gh` (leading ellipsis because position 0 is unselected, no trailing
ellipsis because the selection reaches the end). -/
theorem witnessC7 :
    render "abcdefgh".toList [⟨2, 4⟩, ⟨6, 8⟩] = "…cd…gh".toList :=
  (claimC7 "abcdefgh".toList ⟨2, 4⟩ [⟨6, 8⟩] (by decide) (by decide)).1

/-- C8 (confirmed): every selector stored in a node's `selection` after
distributing a tree-level selection (and hence after `select` or
`select_more`) is non-empty and lies within the node's own text, and a
selection whose positions all fall outside the node's own-text window
leaves that node's own selection empty (the positions are held by the
descendants, each relative to its own text). -/
theorem claimC8 :
    (∀ (q : List TextPositionSelector) (base : Nat) (e : Enactment),
      selOkB (distAt q base e) = true) ∧
    (∀ (e : Enactment) (q : List TextPositionSelector),
      selOkB (select e q) = true ∧ selOkB (select_more e q) = true) ∧
    (∀ (q : List TextPositionSelector) (base : Nat) (e : Enactment),
      (∀ s ∈ q, s.stop ≤ base ∨ base + e.content.length ≤ s.start) →
      (distAt q base e).selection = []) := by
  refine ⟨selOkB_distAt, ?_, ?_⟩
  · intro e q
    exact ⟨selOkB_distAt _ 0 e, selOkB_distAt _ 0 e⟩
  · intro q base e h
    rw [selection_distAt]
    exact clipLocal_outside h

/-- C8 witness: selecting positions `[0, 2)` (the child's phrase) on the
parent with empty own text keeps the invariant and leaves the parent's own
selection empty. -/
theorem witnessC8 :
    selOkB (select deepP [⟨0, 2⟩]) = true ∧
    (distAt [⟨0, 2⟩] 0 deepP).selection = [] :=
  ⟨(claimC8.2.1 deepP [⟨0, 2⟩]).1,
   claimC8.2.2 [⟨0, 2⟩] 0 deepP (by decide)⟩

/-- C9 (confirmed): an unexpanded child is a distinct link variant, not a
text-bearing node: the discriminator separates the two variants,
requesting the text or children of a link fails with `UnexpandedNode`, and
the full-text traversal of a node whose children are all links yields only
the node's own content. -/
theorem claimC9 : ∀ (url : List Char),
    EChild.isLink (.link url) = true ∧
    (∀ n : Enactment, EChild.isLink (.node n) = false) ∧
    EChild.textOf (.link url) = .error .unexpandedNode ∧
    EChild.childrenOf (.link url) = .error .unexpandedNode ∧
    (∀ (nd : List (List Char)) (h sd : List Char) (ed : Option (List Char))
        (c : List Char) (sel : List TextPositionSelector) (urls : List (List Char)),
      (Enactment.mk nd h sd ed c sel (urls.map EChild.link)).text = c) := by
  intro url
  refine ⟨rfl, fun _ => rfl, rfl, rfl, ?_⟩
  intro nd h sd ed c sel urls
  show sepJoin2 c (joinChunks (childTexts (urls.map EChild.link))) = c
  rw [childTexts_links urls]
  exact sepJoin2_nil_right c

/-- C10 (confirmed): the string representation of an Enactment is the
currently selected text in double quotation marks, a space, and a
parenthesized citation of the node path, a space, and the ISO start date;
an Enactment whose selection has not been changed from the full default
shows its full text inside the quotes. -/
theorem claimC10 :
    (∀ e : Enactment, Enactment.str e =
      '"' :: selected_text e ++ '"' :: ' ' :: '(' :: pathChars e.node ++
        ' ' :: e.start_date ++ [')']) ∧
    (∀ e : Enactment, Enactment.str (fullSelect e) =
      '"' :: e.text ++ '"' :: ' ' :: '(' :: pathChars e.node ++
        ' ' :: e.start_date ++ [')']) := by
  constructor
  · intro e
    show quoteWrap (selected_text e) ++ ' ' :: cite e = _
    unfold quoteWrap cite
    simp [List.append_assoc]
  · intro e
    show quoteWrap (selected_text (fullSelect e)) ++ ' ' :: cite (fullSelect e) = _
    rw [selected_text_fullSelect e]
    unfold quoteWrap cite
    rw [node_fullSelect e, start_date_fullSelect e]
    simp [List.append_assoc]

end Legislice
